import Mathlib

set_option maxRecDepth 8000

/-!
Verification of the streaming-session consolidation buffer
(`src/graph/checkpoint.py`, class `ChatStreamManager` and its module-level
wrapper functions) against its natural-language specification.

The embedding models:
* the langgraph `InMemoryStore` namespace used per conversation thread as an
  insertion-ordered association list from string keys to stored values
  (`put` of an existing key replaces the value in place, as a Python dict
  does; `search` iterates in insertion order and applies the limit);
* the two persistence backends (MongoDB collections / PostgreSQL tables) as
  lists of records, with `datetime.now()` modelled by a monotonic counter;
* each method of `ChatStreamManager` and each module-level wrapper as a pure
  function from the manager state (and inputs) to a result and a new state.
-/

/-- A value held in the in-memory store: either the cursor bookkeeping
dict holding the key `index` (written by `process_stream_message`), or a raw
string message chunk. -/
inductive StoreValue where
  | cursorVal (index : Nat)
  | strVal (s : String)
deriving DecidableEq, Repr

/-- Items of one store namespace, in insertion order (a Python dict keeps the
position of a key when its value is overwritten). -/
abbrev NsItems := List (String × StoreValue)

/-- `InMemoryStore.get` within one namespace. -/
def nsGet (items : NsItems) (key : String) : Option StoreValue :=
  match items.find? (fun p => p.1 == key) with
  | some p => some p.2
  | none => none

/-- `InMemoryStore.put` within one namespace: replace in place if the key is
present, otherwise append at the end (dict insertion order). -/
def nsPut (items : NsItems) (key : String) (v : StoreValue) : NsItems :=
  if items.any (fun p => p.1 == key) then
    items.map (fun p => if p.1 == key then (key, v) else p)
  else
    items ++ [(key, v)]

/-- `InMemoryStore.search` on one namespace: items in insertion order,
bounded by `limit`. -/
def nsSearch (items : NsItems) (limit : Nat) : List StoreValue :=
  (items.take limit).map Prod.snd

/-- The whole in-memory store, keyed by `thread_id` (the namespace used by the
code is `("messages", thread_id)`, so the first component is constant). -/
abbrev Store := List (String × NsItems)

def storeNs (s : Store) (tid : String) : NsItems :=
  match s.find? (fun p => p.1 == tid) with
  | some p => p.2
  | none => []

def storeSetNs (s : Store) (tid : String) (items : NsItems) : Store :=
  if s.any (fun p => p.1 == tid) then
    s.map (fun p => if p.1 == tid then (tid, items) else p)
  else
    s ++ [(tid, items)]

/-- The store key of the chunk with sequence index `i`: the Python f-string
`f"chunk_.."` interpolating the index. -/
def chunkKey (i : Nat) : String := "chunk_" ++ Nat.repr i

/-- Reading `int(cursor.value.get("index", 0))`.  Through the public API the
value under the key `cursor` is always a `cursorVal`; a string value would
raise in Python (caught by the surrounding try/except), and is mapped to the
default 0 here, which no reachable state exercises. -/
def cursorIndexOf : StoreValue → Nat
  | .cursorVal i => i
  | .strVal _ => 0

/-- The buffering steps of `process_stream_message` on one namespace: read the
cursor (fresh sessions start at index 0), store the advanced cursor, store the
chunk under `chunkKey`.  Returns the assigned `current_index` and the updated
namespace. -/
def appendChunkNs (ns : NsItems) (msg : String) : Nat × NsItems :=
  match nsGet ns "cursor" with
  | none =>
      let ns1 := nsPut ns "cursor" (.cursorVal 0)
      (0, nsPut ns1 (chunkKey 0) (.strVal msg))
  | some c =>
      let i := cursorIndexOf c + 1
      let ns1 := nsPut ns "cursor" (.cursorVal i)
      (i, nsPut ns1 (chunkKey i) (.strVal msg))

/-- The buffering steps of `process_stream_message` lifted to the whole
store. -/
def bufferAppend (s : Store) (tid msg : String) : Nat × Store :=
  let r := appendChunkNs (storeNs s tid) msg
  (r.1, storeSetNs s tid r.2)

/-- The retrieval-and-filter step of `_persist_complete_conversation`:
`store.search(namespace, limit=final_index + 2)`, then keep only values that
are truthy and not a dict (this drops the cursor bookkeeping value and empty
strings). -/
def drainedMessages (s : Store) (tid : String) (final_index : Nat) : List String :=
  (nsSearch (storeNs s tid) (final_index + 2)).filterMap fun v =>
    match v with
    | .cursorVal _ => none
    | .strVal str => if str == "" then none else some str

/-- A row of the `chat_streams` collection/table. -/
structure ConvRecord where
  thread_id : String
  messages : List String
  ts : Nat
deriving DecidableEq, Repr

/-- A row of the `research_replays` collection/table. -/
structure ReplayRecord where
  thread_id : String
  research_topic : String
  report_style : String
  messages : Int
  ts : Nat
deriving DecidableEq, Repr

/-- A row of the `langgraph_events` collection/table. -/
structure EventRecord where
  thread_id : String
  event : String
  level : String
  message : String
  ts : Nat
deriving DecidableEq, Repr

/-- Durable backend state: the three collections/tables plus a monotonic
counter standing in for `datetime.now()`. -/
structure DbState where
  chat_streams : List ConvRecord
  research_replays : List ReplayRecord
  langgraph_events : List EventRecord
  clock : Nat
deriving DecidableEq, Repr

/-- Which backend connection is live: `mongo_db` set, `postgres_conn` set, or
neither. -/
inductive BackendKind where
  | mongodb
  | postgresql
  | noConn
deriving DecidableEq, Repr

/-- The observable state of a `ChatStreamManager` instance. -/
structure Manager where
  checkpoint_saver : Bool
  backend : BackendKind
  db : DbState
  store : Store
deriving DecidableEq, Repr

/-- Backend selection in `__init__`: dispatch on the URI scheme prefix;
unrecognized schemes leave both connections unset. -/
def selectBackend (db_uri : String) : BackendKind :=
  if db_uri.startsWith "mongodb://" then .mongodb
  else if db_uri.startsWith "postgresql://" || db_uri.startsWith "postgres://" then .postgresql
  else .noConn

/-- `ChatStreamManager.__init__` (connections assumed to succeed when the
scheme is recognized; a failed connect also leaves the backend unset). -/
def mkManager (checkpoint_saver : Bool) (db_uri : String) : Manager :=
  { checkpoint_saver := checkpoint_saver
    backend := if checkpoint_saver then selectBackend db_uri else .noConn
    db := ⟨[], [], [], 0⟩
    store := [] }

/-- Substring containment, the semantics of Python `str.find(sub) > -1`. -/
def containsSub (s pat : String) : Bool := decide (pat.data <:+: s.data)

namespace ChatStreamManager

/-- The per-message predicate inside `_process_stream_messages`: a message is
kept iff it contains one of the markers and, when it is a message-chunk frame,
also one of the content / reasoning-content / finish-reason fields. -/
def keepMessage (message : String) : Bool :=
  if !containsSub message "event:" && !containsSub message "data:" then false
  else if containsSub message "message_chunk" then
    containsSub message "content" || containsSub message "reasoning_content"
      || containsSub message "finish_reason"
  else true

/-- `ChatStreamManager._process_stream_messages` applied to a stored
conversation document, whose `messages` field is a list of strings (stored
fragments are strings; the bytes-decoding branch is the identity here). -/
def process_stream_messages (messages : List String) : String :=
  if messages.length > 0 then
    let valid := messages.filter keepMessage
    if valid.isEmpty then "" else String.join valid
  else ""

/-- Helper for the MongoDB `update_one` on `research_replays`: update the
first document matching the thread id. -/
def updateFirstReplay : List ReplayRecord → String → Int → List ReplayRecord
  | [], _, _ => []
  | r :: rest, tid, count =>
      if r.thread_id == tid then { r with messages := count } :: rest
      else r :: updateFirstReplay rest tid count

/-- `ChatStreamManager.log_research_replays`. -/
def log_research_replays (m : Manager) (thread_id research_topic report_style : String)
    (messages : Int) : Manager :=
  if !m.checkpoint_saver then m
  else match m.backend with
  | .noConn => m
  | .mongodb =>
      if messages > 0 then
        if (m.db.research_replays.find? (fun r => r.thread_id == thread_id)).isSome then
          { m with db := { m.db with
              research_replays := updateFirstReplay m.db.research_replays thread_id messages } }
        else m
      else
        { m with db := { m.db with
            research_replays := m.db.research_replays ++
              [⟨thread_id, research_topic, report_style, messages, m.db.clock⟩],
            clock := m.db.clock + 1 } }
  | .postgresql =>
      if messages > 0 then
        if m.db.research_replays.any (fun r => r.thread_id == thread_id) then
          { m with db := { m.db with
              research_replays := m.db.research_replays.map fun r =>
                if r.thread_id == thread_id then { r with messages := messages } else r } }
        else m
      else
        { m with db := { m.db with
            research_replays := m.db.research_replays ++
              [⟨thread_id, research_topic, report_style, messages, m.db.clock⟩],
            clock := m.db.clock + 1 } }

/-- `ChatStreamManager.log_graph_event` (insert-only on both backends). -/
def log_graph_event (m : Manager) (thread_id event level message : String) : Manager :=
  if !m.checkpoint_saver then m
  else match m.backend with
  | .noConn => m
  | .mongodb =>
      { m with db := { m.db with
          langgraph_events := m.db.langgraph_events ++
            [⟨thread_id, event, level, message, m.db.clock⟩],
          clock := m.db.clock + 1 } }
  | .postgresql =>
      { m with db := { m.db with
          langgraph_events := m.db.langgraph_events ++
            [⟨thread_id, event, level, message, m.db.clock⟩],
          clock := m.db.clock + 1 } }

/-- `ChatStreamManager.get_messages_by_id` (both backends fetch the first
record matching the thread id and post-process it). -/
def get_messages_by_id (m : Manager) (thread_id : String) : Option String :=
  if !m.checkpoint_saver then none
  else match m.backend with
  | .noConn => none
  | .mongodb =>
      match m.db.chat_streams.find? (fun c => c.thread_id == thread_id) with
      | none => none
      | some conv => some (process_stream_messages conv.messages)
  | .postgresql =>
      match m.db.chat_streams.find? (fun c => c.thread_id == thread_id) with
      | none => none
      | some conv => some (process_stream_messages conv.messages)

/-- `ChatStreamManager.get_stream_messages`: `research_replays`, descending by
timestamp (the `sort` argument defaults to the `ts` column, the only one
modelled), bounded by `limit`. -/
def get_stream_messages (m : Manager) (limit : Nat) (sort : String) : List ReplayRecord :=
  if !m.checkpoint_saver then []
  else match m.backend with
  | .noConn => []
  | .mongodb =>
      ((m.db.research_replays.insertionSort (fun a b => b.ts ≤ a.ts)).take limit)
  | .postgresql =>
      ((m.db.research_replays.insertionSort (fun a b => b.ts ≤ a.ts)).take limit)

/-- Helper for the MongoDB `update_one` on `chat_streams`. -/
def updateFirstConv : List ConvRecord → String → List String → Nat → List ConvRecord
  | [], _, _, _ => []
  | r :: rest, tid, msgs, ts =>
      if r.thread_id == tid then { r with messages := msgs, ts := ts } :: rest
      else r :: updateFirstConv rest tid msgs ts

/-- `ChatStreamManager._persist_to_mongodb`.  The boolean mirrors
`modified_count > 0` on update (false when the stored document is already
identical) and `inserted_id is not None` on insert. -/
def persist_to_mongodb (m : Manager) (thread_id : String) (messages : List String) :
    Bool × Manager :=
  match m.db.chat_streams.find? (fun c => c.thread_id == thread_id) with
  | some old =>
      let ts := m.db.clock
      let db1 := { m.db with
        chat_streams := updateFirstConv m.db.chat_streams thread_id messages ts,
        clock := m.db.clock + 1 }
      (!(old.messages == messages && old.ts == ts), { m with db := db1 })
  | none =>
      let db1 := { m.db with
        chat_streams := m.db.chat_streams ++ [⟨thread_id, messages, m.db.clock⟩],
        clock := m.db.clock + 1 }
      (true, { m with db := db1 })

/-- `ChatStreamManager._persist_to_postgresql`.  The SQL `UPDATE` touches all
rows matching the thread id; the boolean mirrors `rowcount > 0`. -/
def persist_to_postgresql (m : Manager) (thread_id : String) (messages : List String) :
    Bool × Manager :=
  if m.db.chat_streams.any (fun c => c.thread_id == thread_id) then
    let ts := m.db.clock
    let affected := (m.db.chat_streams.filter (fun c => c.thread_id == thread_id)).length
    let db1 := { m.db with
      chat_streams := m.db.chat_streams.map (fun c =>
        if c.thread_id == thread_id then { c with messages := messages, ts := ts } else c),
      clock := m.db.clock + 1 }
    (decide (affected > 0), { m with db := db1 })
  else
    let db1 := { m.db with
      chat_streams := m.db.chat_streams ++ [⟨thread_id, messages, m.db.clock⟩],
      clock := m.db.clock + 1 }
    (true, { m with db := db1 })

/-- `ChatStreamManager._persist_complete_conversation`: drain and filter the
buffered chunks, abort on an empty result or a disabled saver, log the replay
count, then dispatch on the live connection.  The in-memory buffer is never
touched on any path. -/
def persist_complete_conversation (m : Manager) (thread_id : String) (final_index : Nat) :
    Bool × Manager :=
  let messages := drainedMessages m.store thread_id final_index
  if messages.isEmpty then (false, m)
  else if !m.checkpoint_saver then (false, m)
  else
    let m1 := log_research_replays m thread_id "" "" (messages.length : Int)
    match m1.backend with
    | .mongodb => persist_to_mongodb m1 thread_id messages
    | .postgresql => persist_to_postgresql m1 thread_id messages
    | .noConn => (false, m1)

/-- `ChatStreamManager.process_stream_message`: validate, buffer the chunk,
and consolidate when the finish reason is terminal. -/
def process_stream_message (m : Manager) (thread_id message finish_reason : String) :
    Bool × Manager :=
  if thread_id == "" then (false, m)
  else if message == "" then (false, m)
  else
    let r := bufferAppend m.store thread_id message
    let m1 := { m with store := r.2 }
    if finish_reason == "stop" || finish_reason == "interrupt" then
      persist_complete_conversation m1 thread_id r.1
    else (true, m1)

end ChatStreamManager

/-- Python return values crossing the module-level wrapper API: `None`, a
string, a boolean, or a list of replay rows. -/
inductive RetVal where
  | retNone
  | retStr (s : String)
  | retBool (b : Bool)
  | retList (l : List ReplayRecord)
deriving DecidableEq, Repr

/-- Module-level `chat_stream_message`: gate on the env flag, else delegate to
the default manager. -/
def chat_stream_message (saver : Bool) (m : Manager) (thread_id message finish_reason : String) :
    RetVal × Manager :=
  if saver then
    let r := ChatStreamManager.process_stream_message m thread_id message finish_reason
    (.retBool r.1, r.2)
  else (.retBool false, m)

/-- Module-level `list_conversations`. -/
def list_conversations (saver : Bool) (m : Manager) (limit : Nat) (sort : String) :
    RetVal × Manager :=
  if saver then (.retList (ChatStreamManager.get_stream_messages m limit sort), m)
  else (.retList [], m)

/-- Module-level `get_conversation` (returns the empty string, not `None`,
when the saver is disabled). -/
def get_conversation (saver : Bool) (m : Manager) (thread_id : String) : RetVal × Manager :=
  if saver then
    match ChatStreamManager.get_messages_by_id m thread_id with
    | some s => (.retStr s, m)
    | none => (.retNone, m)
  else (.retStr "", m)

/-- Module-level `log_graph_event`. -/
def log_graph_event (saver : Bool) (m : Manager) (thread_id event level message : String) :
    RetVal × Manager :=
  if saver then (.retNone, ChatStreamManager.log_graph_event m thread_id event level message)
  else (.retStr "", m)

/-- Module-level `log_research_replays`. -/
def log_research_replays (saver : Bool) (m : Manager)
    (thread_id research_topic report_style : String) (messages : Int) : RetVal × Manager :=
  if saver then
    (.retNone, ChatStreamManager.log_research_replays m thread_id research_topic report_style messages)
  else (.retStr "", m)

/-! ### Auxiliary definitions used by the verification -/

/-- The replacement function used by `nsPut` when the key is present. -/
def putFn (k : String) (v : StoreValue) (q : String × StoreValue) : String × StoreValue :=
  if q.1 == k then (k, v) else q

/-- The replacement function used by `storeSetNs` when the key is present. -/
def setNsFn (tid : String) (items : NsItems) (p : String × NsItems) : String × NsItems :=
  if p.1 == tid then (tid, items) else p

/-- The chunk entries of a session that received the payloads `msgs`, starting
at sequence index `start`. -/
def chunkEntries : List String → Nat → NsItems
  | [], _ => []
  | m :: rest, start => (chunkKey start, .strVal m) :: chunkEntries rest (start + 1)

/-- The namespace of a session after its payloads `msgs` were appended in
order: the cursor bookkeeping value (inserted first, updated in place), then
the chunks in insertion order. -/
def canonNs (msgs : List String) : NsItems :=
  if msgs.isEmpty then []
  else ("cursor", .cursorVal (msgs.length - 1)) :: chunkEntries msgs 0

/-- The in-memory stores reachable through the public submit path: starting
from the empty store of a fresh manager, each accepted submission appends one
non-empty chunk via `bufferAppend` (consolidation never touches the store). -/
inductive StoreReach : Store → Prop where
  | init : StoreReach []
  | step (s : Store) (tid msg : String) (hs : StoreReach s) (hm : msg ≠ "") :
      StoreReach (bufferAppend s tid msg).2

/-- Folding the public submit over a list of payloads with a fixed finish
reason (the buffering semantics of N successive submissions). -/
def submitAll (m : Manager) (tid : String) (msgs : List String) (finish : String) : Manager :=
  msgs.foldl (fun acc msg => (ChatStreamManager.process_stream_message acc tid msg finish).2) m

/-- A fresh manager with the saver enabled and a MongoDB connection, used as a
concrete input by several witnesses. -/
def mgrC1 : Manager :=
  { checkpoint_saver := true, backend := .mongodb, db := ⟨[], [], [], 0⟩, store := [] }

/-- The keep predicate as worded by the specification: a fragment is kept iff
it contains one of the two marker substrings and, if it contains the
message-chunk marker, also a content, reasoning-content, or finish-reason
substring. -/
def keepSpec (msg : String) : Bool :=
  (containsSub msg "event:" || containsSub msg "data:") &&
    (!containsSub msg "message_chunk" ||
      (containsSub msg "content" || containsSub msg "reasoning_content"
        || containsSub msg "finish_reason"))

/-- The stored fragments of the concrete example in the specification. -/
def exampleFragments : List String :=
  ["event: x\ndata: 1",
   "event: message_chunk\ndata: \x7b\"content\":\"a\"\x7d",
   "event: message_chunk\ndata: \x7b\"other\":\"b\"\x7d",
   "plain text"]

/-- A manager holding the example conversation under session key `t`. -/
def exampleManager : Manager :=
  { checkpoint_saver := true
    backend := .mongodb
    db := ⟨[⟨"t", exampleFragments, 0⟩], [], [], 1⟩
    store := [] }

/-- A manager whose session `t` already buffered the single payload `a`, used
as a concrete input by witnesses. -/
def mgrC6 : Manager :=
  { checkpoint_saver := true, backend := .mongodb, db := ⟨[], [], [], 0⟩,
    store := [("t", canonNs ["a"])] }

/-- A manager with the saver enabled and no live backend connection, the
configuration reached by an unrecognized connection-URI scheme. -/
def mgrC9 : Manager :=
  { checkpoint_saver := true, backend := .noConn, db := ⟨[], [], [], 0⟩, store := [] }

/-- The non-count fields of a replay row, used to state that an update touches
only the count. -/
def replayShape (r : ReplayRecord) : String × String × String × Nat :=
  (r.thread_id, r.research_topic, r.report_style, r.ts)

/-- The stored conversation records for a session key. -/
def convsFor (l : List ConvRecord) (tid : String) : List ConvRecord :=
  l.filter (fun c => c.thread_id == tid)

/-! ### Injectivity of the decimal chunk-key encoding -/

theorem digitChar_inj_lt : ∀ a < 10, ∀ b < 10, Nat.digitChar a = Nat.digitChar b → a = b := by
  decide

theorem map_digitChar_inj : ∀ (l1 l2 : List Nat), (∀ x ∈ l1, x < 10) → (∀ x ∈ l2, x < 10) →
    l1.map Nat.digitChar = l2.map Nat.digitChar → l1 = l2 := by
  intro l1
  induction l1 with
  | nil =>
    intro l2 _ _ h
    cases l2 with
    | nil => rfl
    | cons b t => simp at h
  | cons a t ih =>
    intro l2 h1 h2 h
    cases l2 with
    | nil => simp at h
    | cons b t2 =>
      simp only [List.map_cons, List.cons.injEq] at h
      have ha : a = b := digitChar_inj_lt a (h1 a (by simp)) b (h2 b (by simp)) h.1
      have ht : t = t2 :=
        ih t2 (fun x hx => h1 x (by simp [hx])) (fun x hx => h2 x (by simp [hx])) h.2
      rw [ha, ht]

theorem toDigitsCore_eq_digits (b : Nat) (hb : 2 ≤ b) :
    ∀ (fuel n : Nat) (ds : List Char), 0 < n → n < fuel →
      Nat.toDigitsCore b fuel n ds = ((Nat.digits b n).map Nat.digitChar).reverse ++ ds := by
  intro fuel
  induction fuel with
  | zero => intro n ds hn hf; omega
  | succ f ih =>
    intro n ds hn hf
    have hb1 : 1 < b := hb
    rw [Nat.digits_def' hb1 hn]
    rcases Nat.eq_zero_or_pos (n / b) with hdiv | hdiv
    · rw [hdiv]
      simp [Nat.toDigitsCore, hdiv]
    · have hne : n / b ≠ 0 := Nat.pos_iff_ne_zero.mp hdiv
      have hself : n / b < n := Nat.div_lt_self hn hb1
      have hlt : n / b < f := by omega
      have hstep : Nat.toDigitsCore b (f + 1) n ds =
          Nat.toDigitsCore b f (n / b) (Nat.digitChar (n % b) :: ds) := by
        simp [Nat.toDigitsCore, hne]
      rw [hstep, ih (n / b) _ hdiv hlt]
      simp [List.append_assoc]

theorem toDigits_eq_digits (b n : Nat) (hb : 2 ≤ b) (hn : 0 < n) :
    Nat.toDigits b n = ((Nat.digits b n).map Nat.digitChar).reverse := by
  rw [Nat.toDigits, toDigitsCore_eq_digits b hb (n + 1) n [] hn (by omega), List.append_nil]

theorem repr_injective : ∀ (m n : Nat), Nat.repr m = Nat.repr n → m = n := by
  have digitsBound : ∀ k x, x ∈ Nat.digits 10 k → x < 10 := fun k x hx =>
    Nat.digits_lt_base (by norm_num) hx
  have zeroCase : ∀ k, 0 < k → Nat.toDigits 10 0 = Nat.toDigits 10 k → False := by
    intro k hk hd
    rw [toDigits_eq_digits 10 k (by norm_num) hk] at hd
    have h0 : Nat.toDigits 10 0 = ['0'] := rfl
    rw [h0] at hd
    have hmap : (Nat.digits 10 k).map Nat.digitChar = ['0'] := by
      have := congrArg List.reverse hd
      simpa using this.symm
    have hdig : Nat.digits 10 k = [0] := by
      refine map_digitChar_inj _ [0] (digitsBound k) ?_ ?_
      · intro x hx; simp at hx; omega
      · rw [hmap]; rfl
    have hofd := Nat.ofDigits_digits 10 k
    rw [hdig] at hofd
    simp [Nat.ofDigits] at hofd
    omega
  intro m n h
  have hd : Nat.toDigits 10 m = Nat.toDigits 10 n := by
    have := congrArg String.data h
    simpa [Nat.repr, List.asString] using this
  rcases Nat.eq_zero_or_pos m with hm | hm <;> rcases Nat.eq_zero_or_pos n with hn | hn
  · omega
  · exact absurd (zeroCase n hn (hm ▸ hd)) not_false
  · exact absurd (zeroCase m hm (hn ▸ hd.symm)) not_false
  · rw [toDigits_eq_digits 10 m (by norm_num) hm, toDigits_eq_digits 10 n (by norm_num) hn] at hd
    have hmap : (Nat.digits 10 m).map Nat.digitChar = (Nat.digits 10 n).map Nat.digitChar :=
      List.reverse_injective hd
    have hdig := map_digitChar_inj _ _ (digitsBound m) (digitsBound n) hmap
    have h1 := Nat.ofDigits_digits 10 m
    have h2 := Nat.ofDigits_digits 10 n
    rw [hdig, h2] at h1
    exact h1.symm

theorem chunkKey_inj {a b : Nat} (h : chunkKey a = chunkKey b) : a = b := by
  have hd := congrArg String.data h
  simp only [chunkKey, String.data_append] at hd
  exact repr_injective a b (String.ext (List.append_cancel_left hd))

theorem chunkKey_ne_cursor (i : Nat) : chunkKey i ≠ "cursor" := by
  intro h
  have hd := congrArg String.data h
  simp only [chunkKey, String.data_append] at hd
  have hlen := congrArg List.length hd
  rw [List.length_append] at hlen
  have h6 : "chunk_".data.length = 6 := rfl
  have h6' : "cursor".data.length = 6 := rfl
  rw [h6, h6'] at hlen
  have hnil : (Nat.repr i).data = [] := List.length_eq_zero.mp (by omega)
  rw [hnil, List.append_nil] at hd
  exact absurd hd (by decide)

/-! ### Namespace and store lemmas -/

theorem nsGet_cons (p : String × StoreValue) (t : NsItems) (k : String) :
    nsGet (p :: t) k = if p.1 == k then some p.2 else nsGet t k := by
  by_cases hp : (p.1 == k) = true
  · simp [nsGet, hp, List.find?_cons_of_pos]
  · simp only [Bool.not_eq_true] at hp
    simp [nsGet, hp, List.find?_cons_of_neg]

theorem nsPut_eq_map (ns : NsItems) (k : String) (v : StoreValue)
    (h : ns.any (fun q => q.1 == k) = true) : nsPut ns k v = ns.map (putFn k v) := by
  simp [nsPut, h, putFn]

theorem nsPut_eq_append (ns : NsItems) (k : String) (v : StoreValue)
    (h : ns.any (fun q => q.1 == k) = false) : nsPut ns k v = ns ++ [(k, v)] := by
  simp only [nsPut, h, Bool.false_eq_true, if_false]

theorem nsGet_map_put_same (t : NsItems) (k : String) (v : StoreValue)
    (h : t.any (fun q => q.1 == k) = true) :
    nsGet (t.map (putFn k v)) k = some v := by
  induction t with
  | nil => simp at h
  | cons p t ih =>
    by_cases hp : (p.1 == k) = true
    · simp only [List.map_cons, putFn, hp, if_true]
      rw [nsGet_cons]
      simp
    · simp only [Bool.not_eq_true] at hp
      have ht : t.any (fun q => q.1 == k) = true := by
        simpa [List.any_cons, hp] using h
      simp only [List.map_cons, putFn, hp, Bool.false_eq_true, if_false]
      rw [nsGet_cons]
      simp only [hp, Bool.false_eq_true, if_false]
      simpa [putFn] using ih ht

theorem nsGet_map_put_other (t : NsItems) (k k' : String) (v : StoreValue) (h : k ≠ k') :
    nsGet (t.map (putFn k v)) k' = nsGet t k' := by
  have hk : (k == k') = false := by simp [h]
  induction t with
  | nil => simp [nsGet]
  | cons p t ih =>
    by_cases hp : (p.1 == k) = true
    · have hp1 : p.1 = k := by simpa using hp
      simp only [List.map_cons, putFn, hp, if_true]
      rw [nsGet_cons, nsGet_cons]
      simp only [hk, hp1, Bool.false_eq_true, if_false]
      simpa [putFn] using ih
    · simp only [Bool.not_eq_true] at hp
      simp only [List.map_cons, putFn, hp, Bool.false_eq_true, if_false]
      rw [nsGet_cons, nsGet_cons]
      simp only [putFn] at ih
      rw [ih]

theorem nsGet_append_put_same (t : NsItems) (k : String) (v : StoreValue)
    (h : t.any (fun q => q.1 == k) = false) :
    nsGet (t ++ [(k, v)]) k = some v := by
  induction t with
  | nil => simp [nsGet]
  | cons p t ih =>
    have hp : (p.1 == k) = false := by
      by_contra hc
      simp only [Bool.not_eq_false] at hc
      simp [List.any_cons, hc] at h
    have ht : t.any (fun q => q.1 == k) = false := by
      simpa [List.any_cons, hp] using h
    rw [List.cons_append, nsGet_cons]
    simp only [hp, Bool.false_eq_true, if_false]
    exact ih ht

theorem nsGet_append_put_other (t : NsItems) (k k' : String) (v : StoreValue) (h : k ≠ k') :
    nsGet (t ++ [(k, v)]) k' = nsGet t k' := by
  have hk : (k == k') = false := by simp [h]
  induction t with
  | nil => simp [nsGet, hk]
  | cons p t ih =>
    rw [List.cons_append, nsGet_cons, nsGet_cons]
    rw [ih]

theorem nsGet_nsPut_same (ns : NsItems) (k : String) (v : StoreValue) :
    nsGet (nsPut ns k v) k = some v := by
  by_cases h : ns.any (fun q => q.1 == k) = true
  · rw [nsPut_eq_map ns k v h]
    exact nsGet_map_put_same ns k v h
  · simp only [Bool.not_eq_true] at h
    rw [nsPut_eq_append ns k v h]
    exact nsGet_append_put_same ns k v h

theorem nsGet_nsPut_other (ns : NsItems) (k k' : String) (v : StoreValue) (h : k ≠ k') :
    nsGet (nsPut ns k v) k' = nsGet ns k' := by
  by_cases hh : ns.any (fun q => q.1 == k) = true
  · rw [nsPut_eq_map ns k v hh]
    exact nsGet_map_put_other ns k k' v h
  · simp only [Bool.not_eq_true] at hh
    rw [nsPut_eq_append ns k v hh]
    exact nsGet_append_put_other ns k k' v h

theorem storeNs_cons (p : String × NsItems) (t : Store) (tid : String) :
    storeNs (p :: t) tid = if p.1 == tid then p.2 else storeNs t tid := by
  by_cases hp : (p.1 == tid) = true
  · simp [storeNs, hp, List.find?_cons_of_pos]
  · simp only [Bool.not_eq_true] at hp
    simp [storeNs, hp, List.find?_cons_of_neg]

theorem storeSetNs_eq_map (s : Store) (tid : String) (items : NsItems)
    (h : s.any (fun q => q.1 == tid) = true) :
    storeSetNs s tid items = s.map (setNsFn tid items) := by
  simp [storeSetNs, h, setNsFn]

theorem storeSetNs_eq_append (s : Store) (tid : String) (items : NsItems)
    (h : s.any (fun q => q.1 == tid) = false) :
    storeSetNs s tid items = s ++ [(tid, items)] := by
  simp only [storeSetNs, h, Bool.false_eq_true, if_false]

theorem storeNs_map_set_same (s : Store) (tid : String) (items : NsItems)
    (h : s.any (fun q => q.1 == tid) = true) :
    storeNs (s.map (setNsFn tid items)) tid = items := by
  induction s with
  | nil => simp at h
  | cons p t ih =>
    by_cases hp : (p.1 == tid) = true
    · simp only [List.map_cons, setNsFn, hp, if_true]
      rw [storeNs_cons]
      simp
    · simp only [Bool.not_eq_true] at hp
      have ht : t.any (fun q => q.1 == tid) = true := by
        simpa [List.any_cons, hp] using h
      simp only [List.map_cons, setNsFn, hp, Bool.false_eq_true, if_false]
      rw [storeNs_cons]
      simp only [hp, Bool.false_eq_true, if_false]
      simpa [setNsFn] using ih ht

theorem storeNs_append_set_same (s : Store) (tid : String) (items : NsItems)
    (h : s.any (fun q => q.1 == tid) = false) :
    storeNs (s ++ [(tid, items)]) tid = items := by
  induction s with
  | nil => simp [storeNs]
  | cons p t ih =>
    have hp : (p.1 == tid) = false := by
      by_contra hc
      simp only [Bool.not_eq_false] at hc
      simp [List.any_cons, hc] at h
    have ht : t.any (fun q => q.1 == tid) = false := by
      simpa [List.any_cons, hp] using h
    rw [List.cons_append, storeNs_cons]
    simp only [hp, Bool.false_eq_true, if_false]
    exact ih ht

theorem storeNs_map_set_other (s : Store) (tid tid' : String) (items : NsItems)
    (h : tid ≠ tid') :
    storeNs (s.map (setNsFn tid items)) tid' = storeNs s tid' := by
  have hk : (tid == tid') = false := by simp [h]
  induction s with
  | nil => simp [storeNs]
  | cons p t ih =>
    by_cases hp : (p.1 == tid) = true
    · have hp1 : p.1 = tid := by simpa using hp
      simp only [List.map_cons, setNsFn, hp, if_true]
      rw [storeNs_cons, storeNs_cons]
      simp only [hk, hp1, Bool.false_eq_true, if_false]
      simpa [setNsFn] using ih
    · simp only [Bool.not_eq_true] at hp
      simp only [List.map_cons, setNsFn, hp, Bool.false_eq_true, if_false]
      rw [storeNs_cons, storeNs_cons]
      simp only [setNsFn] at ih
      rw [ih]

theorem storeNs_append_set_other (s : Store) (tid tid' : String) (items : NsItems)
    (h : tid ≠ tid') :
    storeNs (s ++ [(tid, items)]) tid' = storeNs s tid' := by
  have hk : (tid == tid') = false := by simp [h]
  induction s with
  | nil => simp [storeNs, hk]
  | cons p t ih =>
    rw [List.cons_append, storeNs_cons, storeNs_cons]
    rw [ih]

theorem storeNs_storeSetNs_same (s : Store) (tid : String) (items : NsItems) :
    storeNs (storeSetNs s tid items) tid = items := by
  by_cases h : s.any (fun q => q.1 == tid) = true
  · rw [storeSetNs_eq_map s tid items h]
    exact storeNs_map_set_same s tid items h
  · simp only [Bool.not_eq_true] at h
    rw [storeSetNs_eq_append s tid items h]
    exact storeNs_append_set_same s tid items h

theorem storeNs_storeSetNs_other (s : Store) (tid tid' : String) (items : NsItems)
    (h : tid ≠ tid') : storeNs (storeSetNs s tid items) tid' = storeNs s tid' := by
  by_cases hh : s.any (fun q => q.1 == tid) = true
  · rw [storeSetNs_eq_map s tid items hh]
    exact storeNs_map_set_other s tid tid' items h
  · simp only [Bool.not_eq_true] at hh
    rw [storeSetNs_eq_append s tid items hh]
    exact storeNs_append_set_other s tid tid' items h

/-! ### Canonical shape of a session namespace -/

theorem chunkEntries_key (msgs : List String) : ∀ (start : Nat) (p : String × StoreValue),
    p ∈ chunkEntries msgs start → ∃ j, start ≤ j ∧ j < start + msgs.length ∧ p.1 = chunkKey j := by
  induction msgs with
  | nil => intro start p hp; simp [chunkEntries] at hp
  | cons m rest ih =>
    intro start p hp
    rw [chunkEntries] at hp
    rcases List.mem_cons.mp hp with h | h
    · exact ⟨start, le_refl _, by simp, by rw [h]⟩
    · obtain ⟨j, h1, h2, h3⟩ := ih (start + 1) p h
      exact ⟨j, by omega, by simp; omega, h3⟩

theorem chunkEntries_append (l1 l2 : List String) : ∀ (start : Nat),
    chunkEntries (l1 ++ l2) start = chunkEntries l1 start ++ chunkEntries l2 (start + l1.length) := by
  induction l1 with
  | nil => intro start; simp [chunkEntries]
  | cons m rest ih =>
    intro start
    rw [List.cons_append, chunkEntries, chunkEntries, ih (start + 1), List.cons_append]
    have : start + 1 + rest.length = start + (rest.length + 1) := by omega
    rw [this]
    rfl

theorem length_chunkEntries (msgs : List String) : ∀ (start : Nat),
    (chunkEntries msgs start).length = msgs.length := by
  induction msgs with
  | nil => intro start; rfl
  | cons m rest ih => intro start; simp [chunkEntries, ih]

theorem map_snd_chunkEntries (msgs : List String) : ∀ (start : Nat),
    (chunkEntries msgs start).map Prod.snd = msgs.map StoreValue.strVal := by
  induction msgs with
  | nil => intro start; rfl
  | cons m rest ih => intro start; simp [chunkEntries, ih]

theorem map_fst_chunkEntries (msgs : List String) : ∀ (start : Nat),
    (chunkEntries msgs start).map Prod.fst = (List.range' start msgs.length).map chunkKey := by
  induction msgs with
  | nil => intro start; rfl
  | cons m rest ih =>
    intro start
    rw [chunkEntries, List.map_cons, ih (start + 1)]
    simp [List.range'_succ]

theorem any_chunkEntries_key (msgs : List String) (start : Nat) (k : String)
    (h : ∀ j, start ≤ j → j < start + msgs.length → chunkKey j ≠ k) :
    (chunkEntries msgs start).any (fun q => q.1 == k) = false := by
  rw [List.any_eq_false]
  intro p hp
  obtain ⟨j, h1, h2, h3⟩ := chunkEntries_key msgs start p hp
  simp [h3, h j h1 h2]

/-- No entry of a canonical chunk list uses the cursor key. -/
theorem map_putFn_cursor_chunkEntries (msgs : List String) (start : Nat) (v : StoreValue) :
    (chunkEntries msgs start).map (putFn "cursor" v) = chunkEntries msgs start := by
  induction msgs generalizing start with
  | nil => rfl
  | cons m rest ih =>
    rw [chunkEntries, List.map_cons, ih (start + 1)]
    have : (chunkKey start == "cursor") = false := by
      simp [chunkKey_ne_cursor start]
    simp [putFn, this]

/-- The central step lemma: appending a chunk to a canonical session namespace
assigns the next free index and extends the canonical shape. -/
theorem appendChunkNs_canon (msgs : List String) (msg : String) :
    appendChunkNs (canonNs msgs) msg = (msgs.length, canonNs (msgs ++ [msg])) := by
  cases msgs with
  | nil =>
    have hany : ([("cursor", StoreValue.cursorVal 0)] : NsItems).any
        (fun q => q.1 == chunkKey 0) = false := by
      simp [(chunkKey_ne_cursor 0).symm]
    show (0, nsPut [("cursor", StoreValue.cursorVal 0)] (chunkKey 0) (.strVal msg))
        = (([] : List String).length, canonNs ([] ++ [msg]))
    rw [nsPut_eq_append _ _ _ hany]
    rfl
  | cons m0 rest =>
    set ms := m0 :: rest with hms
    have hlen : ms.length = rest.length + 1 := rfl
    have hcanon : canonNs ms = ("cursor", .cursorVal (ms.length - 1)) :: chunkEntries ms 0 := by
      simp [canonNs, hms]
    have hcur : nsGet (canonNs ms) "cursor" = some (.cursorVal (ms.length - 1)) := by
      rw [hcanon, nsGet_cons]
      simp
    rw [appendChunkNs, hcur]
    simp only [cursorIndexOf]
    have hidx : ms.length - 1 + 1 = ms.length := by
      rw [hlen]
      omega
    rw [hidx]
    have hany1 : (canonNs ms).any (fun q => q.1 == "cursor") = true := by
      rw [hcanon]
      simp
    rw [nsPut_eq_map _ _ _ hany1, hcanon, List.map_cons]
    have hhead : putFn "cursor" (StoreValue.cursorVal ms.length)
        ("cursor", StoreValue.cursorVal (ms.length - 1)) = ("cursor", .cursorVal ms.length) := by
      simp [putFn]
    rw [hhead, map_putFn_cursor_chunkEntries]
    have hany2 : (("cursor", StoreValue.cursorVal ms.length) :: chunkEntries ms 0).any
        (fun q => q.1 == chunkKey ms.length) = false := by
      have h1 : ("cursor" == chunkKey ms.length) = false := by
        simp [(chunkKey_ne_cursor ms.length).symm]
      have hside : ∀ j, 0 ≤ j → j < 0 + ms.length → chunkKey j ≠ chunkKey ms.length := by
        intro j _ hj hkey
        have := chunkKey_inj hkey
        omega
      rw [List.any_cons, h1, any_chunkEntries_key ms 0 (chunkKey ms.length) hside]
      rfl
    rw [nsPut_eq_append _ _ _ hany2]
    have hfinal : (("cursor", StoreValue.cursorVal ms.length) :: chunkEntries ms 0) ++
        [(chunkKey ms.length, StoreValue.strVal msg)] = canonNs (ms ++ [msg]) := by
      rw [List.cons_append]
      have hc2 : canonNs (ms ++ [msg]) = ("cursor", .cursorVal ((ms ++ [msg]).length - 1)) ::
          chunkEntries (ms ++ [msg]) 0 := by
        simp [canonNs, hms]
      rw [hc2, chunkEntries_append]
      simp [hlen, chunkEntries]
    rw [hfinal]

/-! ### Reachability of buffer states through the public submit path -/

theorem bufferAppend_canon (s : Store) (tid msg : String) (msgs : List String)
    (hc : storeNs s tid = canonNs msgs) :
    bufferAppend s tid msg = (msgs.length, storeSetNs s tid (canonNs (msgs ++ [msg]))) := by
  rw [bufferAppend, hc, appendChunkNs_canon]

theorem canon_reach (s : Store) (hs : StoreReach s) (tid : String) :
    ∃ msgs, storeNs s tid = canonNs msgs ∧ ∀ x ∈ msgs, x ≠ "" := by
  induction hs with
  | init => exact ⟨[], rfl, by simp⟩
  | step s' tid' msg _ hm ih =>
    obtain ⟨msgs0, hc0, hne0⟩ := ih
    by_cases htid : tid' = tid
    · subst htid
      refine ⟨msgs0 ++ [msg], ?_, ?_⟩
      · rw [bufferAppend_canon s' tid' msg msgs0 hc0]
        exact storeNs_storeSetNs_same _ _ _
      · intro x hx
        rcases List.mem_append.mp hx with h | h
        · exact hne0 x h
        · simp at h
          rw [h]
          exact hm
    · refine ⟨msgs0, ?_, hne0⟩
      rw [bufferAppend]
      rw [storeNs_storeSetNs_other _ _ _ _ htid]
      exact hc0

/-! ### The drained message list of a canonical namespace -/

theorem filterMap_strVal (ms : List String) (hne : ∀ x ∈ ms, x ≠ "") :
    (ms.map StoreValue.strVal).filterMap (fun v =>
      match v with
      | .cursorVal _ => none
      | .strVal str => if str == "" then none else some str) = ms := by
  induction ms with
  | nil => rfl
  | cons m rest ih =>
    have hm : (m == "") = false := by simp [hne m (by simp)]
    simp only [List.map_cons, List.filterMap_cons, hm, Bool.false_eq_true, if_false]
    rw [ih (fun x hx => hne x (by simp [hx]))]

theorem drained_of_canon (s : Store) (tid : String) (ms : List String)
    (hms : ms ≠ []) (hne : ∀ x ∈ ms, x ≠ "") (hc : storeNs s tid = canonNs ms) :
    drainedMessages s tid (ms.length - 1) = ms := by
  have hlen0 : 1 ≤ ms.length := by
    cases ms with
    | nil => exact absurd rfl hms
    | cons a t => simp
  have hcanon : canonNs ms = ("cursor", .cursorVal (ms.length - 1)) :: chunkEntries ms 0 := by
    cases ms with
    | nil => exact absurd rfl hms
    | cons a t => simp [canonNs]
  rw [drainedMessages, hc, hcanon, nsSearch]
  have hlen : (("cursor", StoreValue.cursorVal (ms.length - 1)) ::
      chunkEntries ms 0).length = ms.length + 1 := by
    simp [length_chunkEntries]
  have htake : (("cursor", StoreValue.cursorVal (ms.length - 1)) ::
      chunkEntries ms 0).take (ms.length - 1 + 2) =
      ("cursor", StoreValue.cursorVal (ms.length - 1)) :: chunkEntries ms 0 := by
    apply List.take_of_length_le
    rw [hlen]
    omega
  rw [htake, List.map_cons, map_snd_chunkEntries]
  simp only [List.filterMap_cons]
  exact filterMap_strVal ms hne

/-! ### State-preservation lemmas for the persistence layer -/

theorem log_research_replays_store (m : Manager) (a b c : String) (n : Int) :
    (ChatStreamManager.log_research_replays m a b c n).store = m.store := by
  unfold ChatStreamManager.log_research_replays
  split
  · rfl
  · split <;> (try rfl) <;> split <;> (try rfl) <;> split <;> rfl

theorem log_graph_event_store (m : Manager) (a b c d : String) :
    (ChatStreamManager.log_graph_event m a b c d).store = m.store := by
  unfold ChatStreamManager.log_graph_event
  split
  · rfl
  · split <;> rfl

theorem log_research_replays_saver (m : Manager) (a b c : String) (n : Int) :
    (ChatStreamManager.log_research_replays m a b c n).checkpoint_saver
      = m.checkpoint_saver := by
  unfold ChatStreamManager.log_research_replays
  split
  · rfl
  · split <;> (try rfl) <;> split <;> (try rfl) <;> split <;> rfl

theorem log_research_replays_backend (m : Manager) (a b c : String) (n : Int) :
    (ChatStreamManager.log_research_replays m a b c n).backend = m.backend := by
  unfold ChatStreamManager.log_research_replays
  split
  · rfl
  · split <;> (try rfl) <;> split <;> (try rfl) <;> split <;> rfl

theorem persist_to_mongodb_store (m : Manager) (tid : String) (msgs : List String) :
    (ChatStreamManager.persist_to_mongodb m tid msgs).2.store = m.store := by
  unfold ChatStreamManager.persist_to_mongodb
  split <;> rfl

theorem persist_to_postgresql_store (m : Manager) (tid : String) (msgs : List String) :
    (ChatStreamManager.persist_to_postgresql m tid msgs).2.store = m.store := by
  unfold ChatStreamManager.persist_to_postgresql
  split <;> rfl

theorem persist_complete_conversation_store (m : Manager) (tid : String) (i : Nat) :
    (ChatStreamManager.persist_complete_conversation m tid i).2.store = m.store := by
  simp only [ChatStreamManager.persist_complete_conversation]
  split
  · rfl
  · split
    · rfl
    · split
      · rw [persist_to_mongodb_store]
        exact log_research_replays_store m tid "" "" _
      · rw [persist_to_postgresql_store]
        exact log_research_replays_store m tid "" "" _
      · exact log_research_replays_store m tid "" "" _

/-! ### Submit-path lemmas -/

theorem str_beq_false_of_ne {a b : String} (h : a ≠ b) : (a == b) = false := by
  simp [h]

theorem submit_valid_nonterminal (m : Manager) (tid msg finish : String)
    (h1 : tid ≠ "") (h2 : msg ≠ "") (hf1 : finish ≠ "stop") (hf2 : finish ≠ "interrupt") :
    ChatStreamManager.process_stream_message m tid msg finish
      = (true, { m with store := (bufferAppend m.store tid msg).2 }) := by
  simp only [ChatStreamManager.process_stream_message, str_beq_false_of_ne h1,
    str_beq_false_of_ne h2, str_beq_false_of_ne hf1, str_beq_false_of_ne hf2, Bool.false_eq_true,
    if_false, Bool.or_self]

theorem submit_valid_terminal (m : Manager) (tid msg finish : String)
    (h1 : tid ≠ "") (h2 : msg ≠ "") (hf : finish = "stop" ∨ finish = "interrupt") :
    ChatStreamManager.process_stream_message m tid msg finish
      = ChatStreamManager.persist_complete_conversation
          { m with store := (bufferAppend m.store tid msg).2 } tid
          (bufferAppend m.store tid msg).1 := by
  have hcond : (finish == "stop" || finish == "interrupt") = true := by
    rcases hf with h | h <;> simp [h]
  simp only [ChatStreamManager.process_stream_message, str_beq_false_of_ne h1,
    str_beq_false_of_ne h2, Bool.false_eq_true, if_false, hcond, if_true]

theorem appendChunkNs_cursor (ns : NsItems) (msg : String) :
    nsGet (appendChunkNs ns msg).2 "cursor"
      = some (.cursorVal (appendChunkNs ns msg).1) := by
  cases h : nsGet ns "cursor" with
  | none =>
    simp only [appendChunkNs, h]
    rw [nsGet_nsPut_other _ _ _ _ (chunkKey_ne_cursor 0), nsGet_nsPut_same]
  | some c =>
    simp only [appendChunkNs, h]
    rw [nsGet_nsPut_other _ _ _ _ (chunkKey_ne_cursor (cursorIndexOf c + 1)),
      nsGet_nsPut_same]

theorem appendChunkNs_fst_of_get (ns : NsItems) (msg : String) (c : StoreValue)
    (h : nsGet ns "cursor" = some c) :
    (appendChunkNs ns msg).1 = cursorIndexOf c + 1 := by
  simp [appendChunkNs, h]

theorem bufferAppend_next_index (s : Store) (tid msg msg2 : String) :
    (bufferAppend (bufferAppend s tid msg).2 tid msg2).1
      = (bufferAppend s tid msg).1 + 1 := by
  have hns : storeNs (bufferAppend s tid msg).2 tid
      = (appendChunkNs (storeNs s tid) msg).2 := by
    rw [bufferAppend]
    exact storeNs_storeSetNs_same _ _ _
  have hcur := appendChunkNs_cursor (storeNs s tid) msg
  have h1 : (bufferAppend (bufferAppend s tid msg).2 tid msg2).1
      = (appendChunkNs (storeNs (bufferAppend s tid msg).2 tid) msg2).1 := rfl
  rw [h1, hns, appendChunkNs_fst_of_get _ msg2 _ hcur]
  rfl

theorem submitAll_canon (tid finish : String) (h1 : tid ≠ "")
    (hf1 : finish ≠ "stop") (hf2 : finish ≠ "interrupt") :
    ∀ (msgs : List String) (m : Manager) (acc : List String),
      (∀ x ∈ msgs, x ≠ "") → storeNs m.store tid = canonNs acc →
      storeNs (submitAll m tid msgs finish).store tid = canonNs (acc ++ msgs) := by
  intro msgs
  induction msgs with
  | nil =>
    intro m acc _ hc
    simpa [submitAll] using hc
  | cons msg rest ih =>
    intro m acc hne hc
    have hmsg : msg ≠ "" := hne msg (by simp)
    have hstep := submit_valid_nonterminal m tid msg finish h1 hmsg hf1 hf2
    have hfold : submitAll m tid (msg :: rest) finish
        = submitAll { m with store := (bufferAppend m.store tid msg).2 } tid rest finish := by
      simp [submitAll, hstep]
    rw [hfold]
    have hc' : storeNs ({ m with store := (bufferAppend m.store tid msg).2 } : Manager).store tid
        = canonNs (acc ++ [msg]) := by
      show storeNs (bufferAppend m.store tid msg).2 tid = canonNs (acc ++ [msg])
      rw [bufferAppend_canon m.store tid msg acc hc]
      exact storeNs_storeSetNs_same _ _ _
    have := ih { m with store := (bufferAppend m.store tid msg).2 } (acc ++ [msg])
      (fun x hx => hne x (by simp [hx])) hc'
    rw [this, List.append_assoc]
    rfl

/-! ### Claim theorems -/

/-- C1, counterexample: after a terminal submission (finish signal `stop`)
for session `t`, the buffered fragments and cursor are NOT evicted (the
namespace is non-empty), and a subsequent append for the same key is assigned
sequence index 1, not a fresh cursor at index 0. -/
theorem C1_counterexample :
    storeNs ((ChatStreamManager.process_stream_message mgrC1 "t" "a" "stop").2).store "t" ≠ [] ∧
    (bufferAppend ((ChatStreamManager.process_stream_message mgrC1 "t" "a" "stop").2).store
      "t" "b").1 = 1 := by
  decide

/-- C1, amended: after a submission whose finish signal is terminal (`stop` or
`interrupt`), the session's buffered fragments and cursor are retained — the
store equals the post-append buffer, regardless of persistence outcome — and a
subsequent append for the same session key continues the cursor at the
previous index plus one instead of restarting at 0. -/
theorem C1_terminal_retains_buffer (m : Manager) (tid msg msg2 finish : String)
    (h1 : tid ≠ "") (h2 : msg ≠ "") (hf : finish = "stop" ∨ finish = "interrupt") :
    (ChatStreamManager.process_stream_message m tid msg finish).2.store
      = (bufferAppend m.store tid msg).2 ∧
    (bufferAppend (ChatStreamManager.process_stream_message m tid msg finish).2.store
        tid msg2).1
      = (bufferAppend m.store tid msg).1 + 1 := by
  have hterm := submit_valid_terminal m tid msg finish h1 h2 hf
  have hstore : (ChatStreamManager.process_stream_message m tid msg finish).2.store
      = (bufferAppend m.store tid msg).2 := by
    rw [hterm, persist_complete_conversation_store]
  refine ⟨hstore, ?_⟩
  rw [hstore, bufferAppend_next_index]

/-- Witness for C1's amended theorem at a concrete input. -/
theorem C1_terminal_retains_buffer_witness :
    (ChatStreamManager.process_stream_message mgrC1 "t" "a" "stop").2.store
      = (bufferAppend mgrC1.store "t" "a").2 ∧
    (bufferAppend (ChatStreamManager.process_stream_message mgrC1 "t" "a" "stop").2.store
        "t" "b").1
      = (bufferAppend mgrC1.store "t" "a").1 + 1 :=
  C1_terminal_retains_buffer mgrC1 "t" "a" "b" "stop" (by decide) (by decide) (Or.inl rfl)

/-- C2: appending N non-empty fragments to a fresh session via the public
submit path with a non-terminal finish signal and then draining yields exactly
those N payloads in submission order, and the buffered chunk keys carry the
contiguous, unique sequence indices 0..N-1 in order. -/
theorem C2_append_drain (m : Manager) (tid finish : String) (msgs : List String)
    (h1 : tid ≠ "") (hf1 : finish ≠ "stop") (hf2 : finish ≠ "interrupt")
    (h0 : storeNs m.store tid = []) (hN : msgs ≠ []) (hne : ∀ x ∈ msgs, x ≠ "") :
    drainedMessages (submitAll m tid msgs finish).store tid (msgs.length - 1) = msgs ∧
    (storeNs (submitAll m tid msgs finish).store tid).map Prod.fst
      = "cursor" :: (List.range msgs.length).map chunkKey := by
  have hcanon := submitAll_canon tid finish h1 hf1 hf2 msgs m [] hne (by rw [h0]; rfl)
  rw [List.nil_append] at hcanon
  constructor
  · exact drained_of_canon _ tid msgs hN hne hcanon
  · rw [hcanon]
    cases msgs with
    | nil => exact absurd rfl hN
    | cons a t =>
      have hc : canonNs (a :: t)
          = ("cursor", .cursorVal ((a :: t).length - 1)) :: chunkEntries (a :: t) 0 := by
        simp [canonNs]
      rw [hc, List.map_cons, map_fst_chunkEntries, ← List.range_eq_range']

/-- Witness for C2 at a concrete input. -/
theorem C2_append_drain_witness :
    drainedMessages (submitAll mgrC1 "t" ["a", "b"] "x").store "t" 1 = ["a", "b"] :=
  (C2_append_drain mgrC1 "t" "x" ["a", "b"] (by decide) (by decide) (by decide) rfl
    (by decide) (by decide)).1

/-- C5: `submit` rejects an empty session key or an empty payload before any
state mutation: it returns false and the manager — buffered fragments and
cursors included — is unchanged, for any finish signal.  (The non-string
session-key case of the claim is enforced by typing in this embedding.) -/
theorem C5_validation_rejects (m : Manager) (tid msg finish : String)
    (h : tid = "" ∨ msg = "") :
    ChatStreamManager.process_stream_message m tid msg finish = (false, m) := by
  rcases h with h | h
  · subst h
    simp [ChatStreamManager.process_stream_message]
  · subst h
    by_cases ht : tid = ""
    · subst ht
      simp [ChatStreamManager.process_stream_message]
    · simp [ChatStreamManager.process_stream_message, str_beq_false_of_ne ht]

/-- Witness for C5 at a concrete input. -/
theorem C5_validation_rejects_witness :
    ChatStreamManager.process_stream_message mgrC1 "" "x" "stop" = (false, mgrC1) :=
  C5_validation_rejects mgrC1 "" "x" "stop" (Or.inl rfl)

/-- C8: with persistence disabled, every module-level operation returns its
disabled sentinel (false, empty list, or empty string) and leaves the manager
untouched, for arbitrary valid inputs; the operations are total functions, so
none of them can raise. -/
theorem C8_disabled_sentinels (m : Manager)
    (tid msg finish sort event level topic style : String) (limit : Nat) (count : Int) :
    chat_stream_message false m tid msg finish = (.retBool false, m) ∧
    list_conversations false m limit sort = (.retList [], m) ∧
    get_conversation false m tid = (.retStr "", m) ∧
    log_graph_event false m tid event level msg = (.retStr "", m) ∧
    log_research_replays false m tid topic style count = (.retStr "", m) :=
  ⟨rfl, rfl, rfl, rfl, rfl⟩

/-- C3: the read path keeps a stored fragment exactly according to the
marker/chunk-field filter of the specification, concatenates the survivors
with no separator in stored order (the empty string when none survive), and on
the specification's four-fragment example returns the concatenation of exactly
the first two fragments. -/
theorem C3_read_filter :
    (∀ msgs : List String,
      ChatStreamManager.process_stream_messages msgs = String.join (msgs.filter keepSpec)) ∧
    ChatStreamManager.get_messages_by_id exampleManager "t"
      = some ("event: x\ndata: 1" ++ "event: message_chunk\ndata: \x7b\"content\":\"a\"\x7d") := by
  constructor
  · intro msgs
    have hkeep : ChatStreamManager.keepMessage = keepSpec := by
      funext x
      unfold ChatStreamManager.keepMessage keepSpec
      cases containsSub x "event:" <;> cases containsSub x "data:" <;>
        cases containsSub x "message_chunk" <;> cases containsSub x "content" <;>
          cases containsSub x "reasoning_content" <;>
            cases containsSub x "finish_reason" <;> rfl
    cases msgs with
    | nil => rfl
    | cons a t =>
      simp only [ChatStreamManager.process_stream_messages, hkeep, List.length_cons]
      rw [if_pos (by omega)]
      by_cases he : (List.filter keepSpec (a :: t)).isEmpty
      · rw [if_pos he, List.isEmpty_iff.mp he]
        rfl
      · rw [if_neg he]
  · decide

/-- C6: a submission with a terminal finish signal consolidates all buffered
fragments of the session including the one just appended, in append order
(which equals strictly increasing sequence-index order, the new chunk getting
the next free index), excluding the cursor bookkeeping value; the terminal
submit path hands exactly this buffer state to the consolidation step. -/
theorem C6_consolidation_order (m : Manager) (tid msg : String) (msgs : List String)
    (h1 : tid ≠ "") (h2 : msg ≠ "") (hc : storeNs m.store tid = canonNs msgs)
    (hne : ∀ x ∈ msgs, x ≠ "") :
    (bufferAppend m.store tid msg).1 = msgs.length ∧
    drainedMessages (bufferAppend m.store tid msg).2 tid (bufferAppend m.store tid msg).1
      = msgs ++ [msg] ∧
    (∀ finish, finish = "stop" ∨ finish = "interrupt" →
      ChatStreamManager.process_stream_message m tid msg finish
        = ChatStreamManager.persist_complete_conversation
            { m with store := (bufferAppend m.store tid msg).2 } tid
            (bufferAppend m.store tid msg).1) := by
  have hb := bufferAppend_canon m.store tid msg msgs hc
  have hne' : ∀ x ∈ msgs ++ [msg], x ≠ "" := by
    intro x hx
    rcases List.mem_append.mp hx with h | h
    · exact hne x h
    · simp at h
      rw [h]
      exact h2
  refine ⟨by rw [hb], ?_, fun finish hf => submit_valid_terminal m tid msg finish h1 h2 hf⟩
  have hcs := storeNs_storeSetNs_same m.store tid (canonNs (msgs ++ [msg]))
  have hd := drained_of_canon _ tid (msgs ++ [msg]) (by simp) hne' hcs
  have hlen : (msgs ++ [msg]).length - 1 = msgs.length := by simp
  rw [hlen] at hd
  rw [hb]
  exact hd

/-- Witness for C6 at a concrete input. -/
theorem C6_consolidation_order_witness :
    drainedMessages (bufferAppend mgrC6.store "t" "b").2 "t"
      (bufferAppend mgrC6.store "t" "b").1 = ["a", "b"] :=
  (C6_consolidation_order mgrC6 "t" "b" ["a"] (by decide) (by decide) rfl
    (by decide)).2.1

/-- C9: with the saver enabled but no backend connected, a valid non-terminal
submission returns true and buffers the fragment; a terminal submission, the
read operations, and the logger operations return the failure/empty sentinel
or leave the state unchanged; and an unrecognized connection-URI scheme indeed
leaves the backend unset. -/
theorem C9_no_backend (m : Manager) (tid msg finish ev lvl pmsg topic style sort : String)
    (limit : Nat) (count : Int)
    (hsv : m.checkpoint_saver = true) (hbk : m.backend = .noConn)
    (h1 : tid ≠ "") (h2 : msg ≠ "") (hf1 : finish ≠ "stop") (hf2 : finish ≠ "interrupt") :
    ChatStreamManager.process_stream_message m tid msg finish
      = (true, { m with store := (bufferAppend m.store tid msg).2 }) ∧
    (ChatStreamManager.process_stream_message m tid msg "stop").1 = false ∧
    ChatStreamManager.get_messages_by_id m tid = none ∧
    ChatStreamManager.get_stream_messages m limit sort = [] ∧
    ChatStreamManager.log_graph_event m tid ev lvl pmsg = m ∧
    ChatStreamManager.log_research_replays m tid topic style count = m ∧
    (∀ uri : String, uri.startsWith "mongodb://" = false →
      uri.startsWith "postgresql://" = false → uri.startsWith "postgres://" = false →
      (mkManager true uri).backend = .noConn) := by
  refine ⟨submit_valid_nonterminal m tid msg finish h1 h2 hf1 hf2, ?_, ?_, ?_, ?_, ?_, ?_⟩
  · rw [submit_valid_terminal m tid msg "stop" h1 h2 (Or.inl rfl)]
    simp only [ChatStreamManager.persist_complete_conversation]
    split
    · rfl
    · split
      · rfl
      · split
        · rename_i heq
          rw [log_research_replays_backend] at heq
          simp [hbk] at heq
        · rename_i heq
          rw [log_research_replays_backend] at heq
          simp [hbk] at heq
        · rfl
  · simp [ChatStreamManager.get_messages_by_id, hsv, hbk]
  · simp [ChatStreamManager.get_stream_messages, hsv, hbk]
  · simp [ChatStreamManager.log_graph_event, hsv, hbk]
  · simp [ChatStreamManager.log_research_replays, hsv, hbk]
  · intro uri ha hb hc
    simp [mkManager, selectBackend, ha, hb, hc]

/-- Witness for C9 at a concrete input. -/
theorem C9_no_backend_witness :
    ChatStreamManager.get_messages_by_id mgrC9 "t" = none :=
  (C9_no_backend mgrC9 "t" "a" "len" "e" "l" "p" "top" "sty" "ts"
    5 3 rfl rfl (by decide) (by decide) (by decide) (by decide)).2.2.1

/-- C10: for every buffer state reachable through the public submit path, a
terminal submission that passes input validation (non-empty session key and
payload) drains a non-empty fragment set at consolidation time — the
just-appended chunk is a non-empty, non-dict value and survives the
bookkeeping filter — so the no-messages abort branch of the consolidation
step is unreachable through the public submit path. -/
theorem C10_no_empty_drain (s : Store) (tid msg : String) (hs : StoreReach s)
    (h1 : tid ≠ "") (h2 : msg ≠ "") :
    drainedMessages (bufferAppend s tid msg).2 tid (bufferAppend s tid msg).1 ≠ [] ∧
    msg ∈ drainedMessages (bufferAppend s tid msg).2 tid (bufferAppend s tid msg).1 := by
  obtain ⟨msgs, hc, hne⟩ := canon_reach s hs tid
  have hb := bufferAppend_canon s tid msg msgs hc
  have hne' : ∀ x ∈ msgs ++ [msg], x ≠ "" := by
    intro x hx
    rcases List.mem_append.mp hx with h | h
    · exact hne x h
    · simp at h
      rw [h]
      exact h2
  have hcs := storeNs_storeSetNs_same s tid (canonNs (msgs ++ [msg]))
  have hd := drained_of_canon _ tid (msgs ++ [msg]) (by simp) hne' hcs
  have hlen : (msgs ++ [msg]).length - 1 = msgs.length := by simp
  rw [hlen] at hd
  rw [hb]
  constructor
  · show drainedMessages (storeSetNs s tid (canonNs (msgs ++ [msg]))) tid msgs.length ≠ []
    rw [hd]
    simp
  · show msg ∈ drainedMessages (storeSetNs s tid (canonNs (msgs ++ [msg]))) tid msgs.length
    rw [hd]
    simp

/-- Witness for C10 at a concrete input (the empty initial store). -/
theorem C10_no_empty_drain_witness :
    drainedMessages (bufferAppend [] "t" "a").2 "t" (bufferAppend [] "t" "a").1 ≠ [] :=
  (C10_no_empty_drain [] "t" "a" StoreReach.init (by decide) (by decide)).1

/-! ### Replay-summary lemmas (C4) -/

theorem updateFirstReplay_length (l : List ReplayRecord) (tid : String) (c : Int) :
    (ChatStreamManager.updateFirstReplay l tid c).length = l.length := by
  induction l with
  | nil => rfl
  | cons r rest ih =>
    rw [ChatStreamManager.updateFirstReplay]
    split <;> simp [ih]

theorem updateFirstReplay_shape (l : List ReplayRecord) (tid : String) (c : Int) :
    (ChatStreamManager.updateFirstReplay l tid c).map replayShape = l.map replayShape := by
  induction l with
  | nil => rfl
  | cons r rest ih =>
    rw [ChatStreamManager.updateFirstReplay]
    split
    · simp [replayShape]
    · simp [ih]

theorem updateFirstReplay_find (l : List ReplayRecord) (tid : String) (c : Int)
    (r0 : ReplayRecord) (h : l.find? (fun r => r.thread_id == tid) = some r0) :
    (ChatStreamManager.updateFirstReplay l tid c).find? (fun r => r.thread_id == tid)
      = some { r0 with messages := c } := by
  induction l with
  | nil => simp at h
  | cons r rest ih =>
    cases hr : (r.thread_id == tid) with
    | true =>
      simp only [List.find?, hr] at h
      injection h with h
      subst h
      rw [ChatStreamManager.updateFirstReplay, if_pos hr]
      simp only [List.find?]
      simp [hr]
    | false =>
      simp only [List.find?, hr] at h
      rw [ChatStreamManager.updateFirstReplay, if_neg (by simp [hr])]
      simp only [List.find?, hr]
      exact ih h

theorem pgReplay_map_shape (l : List ReplayRecord) (tid : String) (c : Int) :
    ((l.map fun r => if r.thread_id == tid then { r with messages := c } else r).map
      replayShape) = l.map replayShape := by
  induction l with
  | nil => rfl
  | cons r rest ih =>
    by_cases hr : (r.thread_id == tid) = true
    · simp only [List.map_cons, if_pos hr]
      rw [ih]
      rfl
    · simp only [List.map_cons, if_neg hr]
      rw [ih]

theorem pgReplay_map_find (l : List ReplayRecord) (tid : String) (c : Int)
    (r0 : ReplayRecord) (h : l.find? (fun r => r.thread_id == tid) = some r0) :
    (l.map fun r => if r.thread_id == tid then { r with messages := c } else r).find?
      (fun r => r.thread_id == tid) = some { r0 with messages := c } := by
  induction l with
  | nil => simp at h
  | cons r rest ih =>
    cases hr : (r.thread_id == tid) with
    | true =>
      simp only [List.find?, hr] at h
      injection h with h
      subst h
      simp only [List.map_cons, if_pos hr]
      simp only [List.find?]
      simp [hr]
    | false =>
      simp only [List.find?, hr] at h
      simp only [List.map_cons, if_neg (by simp [hr] : ¬(r.thread_id == tid) = true)]
      simp only [List.find?, hr]
      exact ih h

/-- With the saver on and a live backend, a non-positive count always inserts
a fresh summary row (the open/initiating record). -/
theorem log_replays_insert (m : Manager) (tid topic style : String) (count : Int)
    (hsv : m.checkpoint_saver = true)
    (hbk : m.backend = .mongodb ∨ m.backend = .postgresql) (hc : ¬count > 0) :
    (ChatStreamManager.log_research_replays m tid topic style count).db.research_replays
      = m.db.research_replays ++ [⟨tid, topic, style, count, m.db.clock⟩] := by
  rcases hbk with hb | hb <;>
    simp [ChatStreamManager.log_research_replays, hsv, hb, hc]

/-- C4: with a live backend, recording a replay summary with positive count
updates only the count of an existing summary row — row multiset length,
thread ids, topics, styles, and timestamps are unchanged, and the first
matching row now carries the new count — and performs no write when no row
exists; a summary with count 0 always inserts a fresh row, so two zero-count
calls insert two rows. -/
theorem C4_replay_summary (m : Manager) (tid topic style : String) (count : Int)
    (hsv : m.checkpoint_saver = true)
    (hbk : m.backend = .mongodb ∨ m.backend = .postgresql) :
    (count > 0 → m.db.research_replays.find? (fun r => r.thread_id == tid) = none →
      ChatStreamManager.log_research_replays m tid topic style count = m) ∧
    (count > 0 → ∀ r0, m.db.research_replays.find? (fun r => r.thread_id == tid) = some r0 →
      (ChatStreamManager.log_research_replays m tid topic style count).db.research_replays.length
        = m.db.research_replays.length ∧
      (ChatStreamManager.log_research_replays m tid topic style count).db.research_replays.map
        replayShape = m.db.research_replays.map replayShape ∧
      (ChatStreamManager.log_research_replays m tid topic style count).db.research_replays.find?
        (fun r => r.thread_id == tid) = some { r0 with messages := count }) ∧
    (count = 0 →
      (ChatStreamManager.log_research_replays m tid topic style count).db.research_replays
        = m.db.research_replays ++ [⟨tid, topic, style, count, m.db.clock⟩]) ∧
    (count = 0 →
      (ChatStreamManager.log_research_replays
          (ChatStreamManager.log_research_replays m tid topic style count)
          tid topic style count).db.research_replays.length
        = m.db.research_replays.length + 2) := by
  refine ⟨?_, ?_, ?_, ?_⟩
  · intro hp hnone
    rcases hbk with hb | hb
    · have hsome : (m.db.research_replays.find? (fun r => r.thread_id == tid)).isSome
          = false := by
        rw [hnone]
        rfl
      simp [ChatStreamManager.log_research_replays, hsv, hb, hp, hsome]
    · have hany : m.db.research_replays.any (fun r => r.thread_id == tid) = false := by
        rw [List.any_eq_false]
        intro r hr
        have := List.find?_eq_none.mp hnone r hr
        simpa using this
      simp [ChatStreamManager.log_research_replays, hsv, hb, hp, hany]
  · intro hp r0 hsome
    rcases hbk with hb | hb
    · have hs : (m.db.research_replays.find? (fun r => r.thread_id == tid)).isSome = true := by
        rw [hsome]
        rfl
      simp only [ChatStreamManager.log_research_replays, hsv, Bool.not_true,
        Bool.false_eq_true, if_false, hb, hp, if_pos hp, hs, if_true]
      exact ⟨updateFirstReplay_length _ _ _, updateFirstReplay_shape _ _ _,
        updateFirstReplay_find _ _ _ _ hsome⟩
    · have hany : m.db.research_replays.any (fun r => r.thread_id == tid) = true := by
        rw [List.any_eq_true]
        have hpmem := List.mem_of_find?_eq_some hsome
        have hp := List.find?_some hsome
        exact ⟨r0, hpmem, hp⟩
      simp only [ChatStreamManager.log_research_replays, hsv, Bool.not_true,
        Bool.false_eq_true, if_false, hb, hp, if_pos hp, hany, if_true]
      exact ⟨by rw [List.length_map], pgReplay_map_shape _ _ _,
        pgReplay_map_find _ _ _ _ hsome⟩
  · intro hz
    exact log_replays_insert m tid topic style count hsv hbk (by omega)
  · intro hz
    have h1 := log_replays_insert m tid topic style count hsv hbk (by omega)
    have h2 := log_replays_insert (ChatStreamManager.log_research_replays m tid topic style count)
      tid topic style count (by rw [log_research_replays_saver]; exact hsv)
      (by rw [log_research_replays_backend]; exact hbk) (by omega)
    rw [h2, h1]
    simp

/-- Witness for C4 at a concrete input (MongoDB backend, empty table, two
zero-count insertions). -/
theorem C4_replay_summary_witness :
    (ChatStreamManager.log_research_replays
        (ChatStreamManager.log_research_replays mgrC1 "k" "top" "sty" 0)
        "k" "top" "sty" 0).db.research_replays.length
      = mgrC1.db.research_replays.length + 2 :=
  (C4_replay_summary mgrC1 "k" "top" "sty" 0 rfl (Or.inl rfl)).2.2.2 rfl

/-! ### Conversation-upsert lemmas (C7) -/

theorem convsFor_nil_of_find_none (l : List ConvRecord) (tid : String)
    (h : l.find? (fun c => c.thread_id == tid) = none) : convsFor l tid = [] := by
  rw [convsFor, List.filter_eq_nil_iff]
  intro a ha
  exact List.find?_eq_none.mp h a ha

theorem convsFor_append_match (l : List ConvRecord) (tid : String) (r : ConvRecord)
    (hr : (r.thread_id == tid) = true) :
    convsFor (l ++ [r]) tid = convsFor l tid ++ [r] := by
  rw [convsFor, List.filter_append]
  simp only [List.filter, hr]
  rfl

theorem convsFor_single_of_find (l : List ConvRecord) (tid : String) (r0 : ConvRecord)
    (hle : (convsFor l tid).length ≤ 1)
    (h : l.find? (fun c => c.thread_id == tid) = some r0) : convsFor l tid = [r0] := by
  induction l with
  | nil => simp at h
  | cons x rest ih =>
    cases hx : (x.thread_id == tid) with
    | true =>
      simp only [List.find?, hx] at h
      injection h with h
      subst h
      simp only [convsFor, List.filter, hx] at hle ⊢
      have hz : (rest.filter (fun c => c.thread_id == tid)).length = 0 := by
        simp only [List.length_cons] at hle
        omega
      rw [List.length_eq_zero] at hz
      rw [hz]
    | false =>
      simp only [List.find?, hx] at h
      simp only [convsFor, List.filter, hx] at hle ⊢
      exact ih hle h

theorem convsFor_updateFirstConv (l : List ConvRecord) (tid : String) (msgs : List String)
    (ts : Nat) (r0 : ConvRecord) (h : convsFor l tid = [r0]) :
    convsFor (ChatStreamManager.updateFirstConv l tid msgs ts) tid = [⟨tid, msgs, ts⟩] := by
  induction l with
  | nil => simp [convsFor] at h
  | cons x rest ih =>
    cases hx : (x.thread_id == tid) with
    | true =>
      have hx1 : x.thread_id = tid := by simpa using hx
      simp only [convsFor, List.filter, hx] at h
      injection h with h1 h2
      have hx2 : (({ x with messages := msgs, ts := ts } : ConvRecord).thread_id == tid)
          = true := by simpa using hx
      rw [ChatStreamManager.updateFirstConv, if_pos hx]
      simp only [convsFor, List.filter, hx2]
      rw [h2]
      have hrec : ({ x with messages := msgs, ts := ts } : ConvRecord) = ⟨tid, msgs, ts⟩ := by
        obtain ⟨xt, xm, xts⟩ := x
        have hx1' : xt = tid := hx1
        rw [hx1']
      rw [hrec]
    | false =>
      simp only [convsFor, List.filter, hx] at h
      rw [ChatStreamManager.updateFirstConv, if_neg (by simp [hx])]
      simp only [convsFor, List.filter, hx]
      exact ih h

theorem convsFor_pg_update (l : List ConvRecord) (tid : String) (msgs : List String)
    (ts : Nat) (r0 : ConvRecord) (h : convsFor l tid = [r0]) :
    convsFor (l.map fun c =>
      if c.thread_id == tid then { c with messages := msgs, ts := ts } else c) tid
      = [⟨tid, msgs, ts⟩] := by
  induction l with
  | nil => simp [convsFor] at h
  | cons x rest ih =>
    cases hx : (x.thread_id == tid) with
    | true =>
      have hx1 : x.thread_id = tid := by simpa using hx
      simp only [convsFor, List.filter, hx] at h
      injection h with h1 h2
      have hx2 : (({ x with messages := msgs, ts := ts } : ConvRecord).thread_id == tid)
          = true := by simpa using hx
      have hnil2 : (rest.map fun c =>
          if c.thread_id == tid then { c with messages := msgs, ts := ts } else c).filter
          (fun c => c.thread_id == tid) = [] := by
        rw [List.filter_eq_nil_iff]
        intro a ha
        obtain ⟨c, hc, rfl⟩ := List.mem_map.mp ha
        have hpc := List.filter_eq_nil_iff.mp h2 c hc
        have hcf : (c.thread_id == tid) = false := by
          simpa using hpc
        simp [hcf]
      have hmap : (x :: rest).map (fun c =>
          if c.thread_id == tid then { c with messages := msgs, ts := ts } else c)
          = ({ x with messages := msgs, ts := ts } : ConvRecord) :: rest.map (fun c =>
            if c.thread_id == tid then { c with messages := msgs, ts := ts } else c) := by
        simp only [List.map_cons]
        rw [if_pos hx]
      rw [hmap]
      simp only [convsFor, List.filter, hx2]
      rw [hnil2]
      have hrec : ({ x with messages := msgs, ts := ts } : ConvRecord) = ⟨tid, msgs, ts⟩ := by
        obtain ⟨xt, xm, xts⟩ := x
        have hx1' : xt = tid := hx1
        rw [hx1']
      rw [hrec]
    | false =>
      simp only [convsFor, List.filter, hx] at h
      have hmap : (x :: rest).map (fun c =>
          if c.thread_id == tid then { c with messages := msgs, ts := ts } else c)
          = x :: rest.map (fun c =>
            if c.thread_id == tid then { c with messages := msgs, ts := ts } else c) := by
        simp only [List.map_cons]
        rw [if_neg (by simp [hx])]
      rw [hmap]
      simp only [convsFor, List.filter, hx]
      exact ih h

/-- One MongoDB upsert leaves exactly one conversation record for the key,
holding the given fragment list (assuming the key-uniqueness invariant). -/
theorem convsFor_persist_mongodb (m : Manager) (tid : String) (msgs : List String)
    (hle : (convsFor m.db.chat_streams tid).length ≤ 1) :
    convsFor (ChatStreamManager.persist_to_mongodb m tid msgs).2.db.chat_streams tid
      = [⟨tid, msgs, m.db.clock⟩] := by
  cases h : m.db.chat_streams.find? (fun c => c.thread_id == tid) with
  | none =>
    have hnil := convsFor_nil_of_find_none _ _ h
    simp only [ChatStreamManager.persist_to_mongodb, h]
    rw [convsFor_append_match _ _ _ (by simp), hnil]
    rfl
  | some r0 =>
    have hsingle := convsFor_single_of_find _ _ _ hle h
    simp only [ChatStreamManager.persist_to_mongodb, h]
    exact convsFor_updateFirstConv _ _ _ _ _ hsingle

/-- One PostgreSQL upsert leaves exactly one conversation record for the key,
holding the given fragment list (assuming the key-uniqueness invariant). -/
theorem convsFor_persist_postgresql (m : Manager) (tid : String) (msgs : List String)
    (hle : (convsFor m.db.chat_streams tid).length ≤ 1) :
    convsFor (ChatStreamManager.persist_to_postgresql m tid msgs).2.db.chat_streams tid
      = [⟨tid, msgs, m.db.clock⟩] := by
  cases hany : m.db.chat_streams.any (fun c => c.thread_id == tid) with
  | false =>
    have hnone : m.db.chat_streams.find? (fun c => c.thread_id == tid) = none := by
      rw [List.find?_eq_none]
      intro x hx
      have := List.any_eq_false.mp hany x hx
      simpa using this
    have hnil := convsFor_nil_of_find_none _ _ hnone
    simp only [ChatStreamManager.persist_to_postgresql, hany, Bool.false_eq_true, if_false]
    rw [convsFor_append_match _ _ _ (by simp), hnil]
    rfl
  | true =>
    obtain ⟨r0, hr0⟩ : ∃ r0, m.db.chat_streams.find? (fun c => c.thread_id == tid)
        = some r0 := by
      have := List.any_eq_true.mp hany
      obtain ⟨x, hx, hpx⟩ := this
      cases hfind : m.db.chat_streams.find? (fun c => c.thread_id == tid) with
      | none =>
        have := List.find?_eq_none.mp hfind x hx
        exact absurd hpx this
      | some r => exact ⟨r, rfl⟩
    have hsingle := convsFor_single_of_find _ _ _ hle hr0
    simp only [ChatStreamManager.persist_to_postgresql, hany, if_true]
    exact convsFor_pg_update _ _ _ _ _ hsingle

/-- C7: calling the conversation upsert twice for the same session key leaves
exactly one stored record for that key, whose fragment list equals the second
call's input, on both backend variants (starting from any state satisfying the
key-uniqueness invariant of the store). -/
theorem C7_upsert_overwrite (m : Manager) (tid : String) (msgs1 msgs2 : List String)
    (hle : (convsFor m.db.chat_streams tid).length ≤ 1) :
    (convsFor (ChatStreamManager.persist_to_mongodb
        (ChatStreamManager.persist_to_mongodb m tid msgs1).2 tid msgs2).2.db.chat_streams
      tid).map (fun c => (c.thread_id, c.messages)) = [(tid, msgs2)] ∧
    (convsFor (ChatStreamManager.persist_to_postgresql
        (ChatStreamManager.persist_to_postgresql m tid msgs1).2 tid msgs2).2.db.chat_streams
      tid).map (fun c => (c.thread_id, c.messages)) = [(tid, msgs2)] := by
  constructor
  · have h1 := convsFor_persist_mongodb m tid msgs1 hle
    have hle1 : (convsFor (ChatStreamManager.persist_to_mongodb m tid msgs1).2.db.chat_streams
        tid).length ≤ 1 := by
      rw [h1]
      simp
    have h2 := convsFor_persist_mongodb _ tid msgs2 hle1
    rw [h2]
    rfl
  · have h1 := convsFor_persist_postgresql m tid msgs1 hle
    have hle1 : (convsFor (ChatStreamManager.persist_to_postgresql m tid
        msgs1).2.db.chat_streams tid).length ≤ 1 := by
      rw [h1]
      simp
    have h2 := convsFor_persist_postgresql _ tid msgs2 hle1
    rw [h2]
    rfl

/-- Witness for C7 at a concrete input (empty store, two upserts). -/
theorem C7_upsert_overwrite_witness :
    (convsFor (ChatStreamManager.persist_to_mongodb
        (ChatStreamManager.persist_to_mongodb mgrC1 "t" ["x"]).2 "t" ["y", "z"]).2.db.chat_streams
      "t").map (fun c => (c.thread_id, c.messages)) = [("t", ["y", "z"])] :=
  (C7_upsert_overwrite mgrC1 "t" ["x"] ["y", "z"] (by decide)).1
